import Mathlib

/-!
Verification development for the LuiFlow backend import pipeline.

The definitions below are a shallow embedding of the JavaScript source:
the date normalizer `parseDate` (index.js lines 149-178), the CSV import
row mapper and fingerprint generator (index.js lines 261-317), the
per-record commit step with duplicate-key handling (index.js lines
326-392), the Transaction write endpoints (index.js lines 654-707), and
the `ImportCommitQueue` (src/utils/importCommitQueue.js).  Machine
numbers are modelled as `Int`/`Rat`, JavaScript `Date` values as
calendar dates, and fallible operations as `Option`.
-/

namespace LuiFlow

/-- Proleptic Gregorian leap-year test, as used by JavaScript `Date`. -/
def isLeap (y : Int) : Bool :=
  y.emod 4 == 0 && (y.emod 100 != 0 || y.emod 400 == 0)

/-- Number of days in month `m` (1..12) of year `y`. -/
def daysInMonth (y m : Int) : Int :=
  if m == 2 then (if isLeap y then 29 else 28)
  else if m == 4 || m == 6 || m == 9 || m == 11 then 30
  else 31

/-- Days since 1970-01-01 of the civil date `(y, m, d)` with `m` in 1..12
(Howard Hinnant's `days_from_civil`; all divisions are by positive
constants, where Euclidean division agrees with floor division). -/
def daysFromCivil (y m d : Int) : Int :=
  let y1 := y - (if m ≤ 2 then 1 else 0)
  let era := y1.ediv 400
  let yoe := y1 - era * 400
  let mp := (m + 9).emod 12
  let doy := (153 * mp + 2).ediv 5 + d - 1
  let doe := yoe * 365 + yoe.ediv 4 - yoe.ediv 100 + doy
  era * 146097 + doe - 719468

/-- Inverse of `daysFromCivil` (Hinnant's `civil_from_days`). -/
def civilFromDays (z : Int) : Int × Int × Int :=
  let z1 := z + 719468
  let era := z1.ediv 146097
  let doe := z1 - era * 146097
  let yoe := (doe - doe.ediv 1460 + doe.ediv 36524 - doe.ediv 146097).ediv 365
  let y := yoe + era * 400
  let doy := doe - (365 * yoe + yoe.ediv 4 - yoe.ediv 100)
  let mp := (5 * doy + 2).ediv 153
  let d := doy - (153 * mp + 2).ediv 5 + 1
  let m := mp + (if mp < 10 then 3 else -9)
  (y + (if m ≤ 2 then 1 else 0), m, d)

/-- A calendar date (year, month 1..12, day 1..31 after normalization).
JavaScript `Date` values carry a time of day as well; every date this
development builds is a midnight date, so the time component is elided. -/
structure CalDate where
  year : Int
  month : Int
  day : Int
deriving DecidableEq, Repr

/-- `new Date(year, month0, day)` with `month0` 0-based: out-of-range
months and days roll over into adjacent months/years (ECMAScript
`MakeDay`), they are never rejected.  For every argument triple reachable
from the source's regex captures the result is far inside the ±8.64e15 ms
range, so the `isNaN` check on such a constructed date never fires. -/
def mkDateRolled (y m0 d : Int) : CalDate :=
  let ym := y + m0.ediv 12
  let m2 := m0.emod 12
  let g := daysFromCivil ym (m2 + 1) 1 + (d - 1)
  let c := civilFromDays g
  ⟨c.1, c.2.1, c.2.2⟩

/-- ECMAScript quirk in the `Date` constructor: integer years 0..99 are
read as 1900..1999. -/
def jsCtorYear (y : Int) : Int :=
  if 0 ≤ y && y ≤ 99 then 1900 + y else y

/-- `new Date(year, month0, day)`. -/
def jsMakeDate (y m0 d : Int) : CalDate :=
  mkDateRolled (jsCtorYear y) m0 d

/-- JavaScript whitespace test, restricted to the ASCII whitespace that
can occur in the inputs this development evaluates. -/
def isWs (c : Char) : Bool :=
  c == ' ' || c == '\t' || c == '\n' || c == '\r'

/-- `String.prototype.trim`: strip leading and trailing whitespace. -/
def jsTrim (cs : List Char) : List Char :=
  ((cs.dropWhile isWs).reverse.dropWhile isWs).reverse

/-- Decimal digit test, `[0-9]`. -/
def isDig (c : Char) : Bool :=
  '0' ≤ c && c ≤ '9'

/-- Numeric value of a digit character. -/
def dv (c : Char) : Nat :=
  c.toNat - 48

/-- Separator class `[\/\-]` of the source's date regexes. -/
def isSep (c : Char) : Bool :=
  c == '/' || c == '-'

/-- Matches the regex fragment `(\d{1,2})[\/\-]` at the head of the
input, returning the captured number and the rest.  Greedy with
backtracking: two digits are taken when the third character is a
separator; one digit when the second character is a separator. -/
def matchD2Sep (cs : List Char) : Option (Nat × List Char) :=
  match cs with
  | c1 :: rest1 =>
    if isDig c1 then
      match rest1 with
      | c2 :: rest2 =>
        if isDig c2 then
          match rest2 with
          | c3 :: rest3 => if isSep c3 then some (dv c1 * 10 + dv c2, rest3) else none
          | [] => none
        else if isSep c2 then some (dv c1, rest2) else none
      | [] => none
    else none
  | [] => none

/-- Matches exactly `k` digits, accumulating their value onto `acc`. -/
def matchDigits (k : Nat) (acc : Nat) (cs : List Char) : Option (Nat × List Char) :=
  match k with
  | 0 => some (acc, cs)
  | k1 + 1 =>
    match cs with
    | c :: r => if isDig c then matchDigits k1 (acc * 10 + dv c) r else none
    | [] => none

/-- Matches one expected character. -/
def matchChar (ch : Char) (cs : List Char) : Option (List Char) :=
  match cs with
  | c :: r => if c == ch then some r else none
  | [] => none

/-- The source's regex `^(\d{1,2})[\/\-](\d{1,2})[\/\-](\d{4})`:
first capture, second capture, year, and the (unconstrained) suffix. -/
def matchSlashDate (cs : List Char) : Option (Nat × Nat × Nat × List Char) :=
  match matchD2Sep cs with
  | none => none
  | some (c1, r1) =>
    match matchD2Sep r1 with
    | none => none
    | some (c2, r2) =>
      match matchDigits 4 0 r2 with
      | none => none
      | some (y, r3) => some (c1, c2, y, r3)

/-- Matches an exact ISO-8601 calendar date `YYYY-MM-DD` (the whole
input, no time part). -/
def matchIso (cs : List Char) : Option (Nat × Nat × Nat) :=
  match matchDigits 4 0 cs with
  | none => none
  | some (y, r1) =>
    match matchChar '-' r1 with
    | none => none
    | some r2 =>
      match matchDigits 2 0 r2 with
      | none => none
      | some (m, r3) =>
        match matchChar '-' r3 with
        | none => none
        | some r4 =>
          match matchDigits 2 0 r4 with
          | none => none
          | some (d, r5) => if r5.isEmpty then some (y, m, d) else none

/-- V8's legacy-parser year windowing, applied to the numeric value of
the year component (not its digit count): values 0..49 are read in the
2000s, 50..99 in the 1900s, larger values literally. -/
def jsYearWindow (y : Nat) : Nat :=
  if y ≤ 49 then y + 2000 else if y ≤ 99 then y + 1900 else y

/-- `new Date(string)`, modelled for the string shapes this development
evaluates it on: an exact ISO `YYYY-MM-DD` date, accepted only when it
is a valid calendar date, and V8's legacy parse of the numeric pattern
`n1/n2/n3` (or with `-` separators).  The legacy composer reads the
components month-day-year when the first is a possible day (1..31), and
year-month-day when it is not (0 or above 31); the year value is then
windowed (`jsYearWindow`), the month must be 1..12 and the day 1..31,
and the day rolls over past the end of the month (ECMAScript
`MakeDay`). -/
def jsDateParse (cs : List Char) : Option CalDate :=
  match matchIso cs with
  | some (y, m, d) =>
    if 1 ≤ m && m ≤ 12 && 1 ≤ (d : Int) && (d : Int) ≤ daysInMonth y m then
      some ⟨y, m, d⟩
    else none
  | none =>
    match matchSlashDate cs with
    | some (c1, c2, y, rest) =>
      if rest.isEmpty then
        if 1 ≤ c1 && c1 ≤ 31 then
          if 1 ≤ c1 && c1 ≤ 12 && 1 ≤ c2 && c2 ≤ 31 then
            some (mkDateRolled (jsYearWindow y) ((c1 : Int) - 1) c2)
          else none
        else
          if 1 ≤ c2 && c2 ≤ 12 && 1 ≤ y && y ≤ 31 then
            some (mkDateRolled (jsYearWindow c1) ((c2 : Int) - 1) y)
          else none
      else none
    | none => none

/-- The date normalizer `parseDate` (index.js lines 149-178).  An empty
string is falsy and yields null at once.  Branch 1 is `new Date(cleanStr)`.
Branch 2 applies the numeric regex and builds `new Date(year, month-1, day)`
day-month-year; since that constructor rolls over rather than rejecting,
its `isNaN` guard never fires, and the third (month-day-year) branch,
which re-runs the identical regex, is unreachable. -/
def parseDate (s : String) : Option CalDate :=
  if s == "" then none
  else
    let cs := jsTrim s.data
    match jsDateParse cs with
    | some d => some d
    | none =>
      match matchSlashDate cs with
      | some (day, mon, y, _) => some (jsMakeDate y ((mon : Int) - 1) day)
      | none => none

/-- JavaScript `||` on an optional string field: `undefined` and the
empty string are falsy and give the default. -/
def jsOr (o : Option String) (dflt : String) : String :=
  match o with
  | some s => if s == "" then dflt else s
  | none => dflt

/-- ASCII lower-casing of one character (`toLowerCase` restricted to the
ASCII values this development evaluates it on). -/
def lowerChar (c : Char) : Char :=
  if 'A' ≤ c && c ≤ 'Z' then Char.ofNat (c.toNat + 32) else c

/-- `String.prototype.toLowerCase`. -/
def jsToLower (s : String) : String :=
  ⟨s.data.map lowerChar⟩

/-- `replace(/[^0-9.-]+/g, '')`: keep only digits, `.` and `-`. -/
def stripAmount (s : String) : List Char :=
  s.data.filter (fun c => isDig c || c == '.' || c == '-')

/-- Numeric value of a digit string. -/
def digitsVal (cs : List Char) : Nat :=
  cs.foldl (fun a c => a * 10 + dv c) 0

/-- A JavaScript number arising from `parseFloat` of a decimal string,
kept exact: the value is `m / 10 ^ e`.  The decimal inputs this pipeline
handles are represented exactly (claims here never depend on binary
floating-point rounding), and canonical forms make structural equality
coincide with JavaScript numeric equality on them. -/
structure JsDec where
  m : Int
  e : Nat
deriving DecidableEq, Repr

/-- Canonicalize by stripping trailing decimal zeros (so `1.50` and
`1.5` are one value, as they are one `Number` in JavaScript). -/
def JsDec.canon (m : Int) (e : Nat) : JsDec :=
  match e with
  | 0 => ⟨m, 0⟩
  | e1 + 1 => if m.emod 10 == 0 then JsDec.canon (m.ediv 10) e1 else ⟨m, e1 + 1⟩

/-- `parseFloat` on a string already stripped to `[0-9.-]`: an optional
leading `-`, then a longest digit run, then optionally `.` and a second
digit run; everything after that is ignored.  `NaN` (no digit found in
either run) is `none`.  JavaScript `-0` equals `0` and prints as `0`,
matching the canonical form `⟨0, 0⟩`. -/
def parseJsFloat (cs : List Char) : Option JsDec :=
  let p := match cs with
           | '-' :: t => (true, t)
           | _ => (false, cs)
  let ip := p.2.takeWhile isDig
  let rest := p.2.dropWhile isDig
  let fp := match rest with
            | '.' :: t => t.takeWhile isDig
            | _ => []
  if ip.isEmpty && fp.isEmpty then none
  else
    let mag : Int := (digitsVal ip * 10 ^ fp.length + digitsVal fp : Nat)
    some (JsDec.canon (if p.1 then -mag else mag) fp.length)

/-- Left-pad a numeral to two digits. -/
def natPad2 (n : Nat) : String :=
  if n < 10 then "0" ++ toString n else toString n

/-- Left-pad a numeral to four digits. -/
def natPad4 (n : Nat) : String :=
  if n < 10 then "000" ++ toString n
  else if n < 100 then "00" ++ toString n
  else if n < 1000 then "0" ++ toString n
  else toString n

/-- `date.toISOString()` for the midnight dates this pipeline builds,
with the server clock at UTC: `YYYY-MM-DDT00:00:00.000Z`.  Every year
reaching this function is positive, so `Int.toNat` is faithful. -/
def isoString (d : CalDate) : String :=
  natPad4 d.year.toNat ++ "-" ++ natPad2 d.month.toNat ++ "-" ++
    natPad2 d.day.toNat ++ "T00:00:00.000Z"

/-- Left-pad a numeral with zeros to `k` characters. -/
def zeroPadTo (s : String) (k : Nat) : String :=
  String.mk (List.replicate (k - s.data.length) '0') ++ s

/-- JavaScript number-to-string (template interpolation `${amount}`) on
an exact decimal in canonical form: integers print without a point,
other decimals as `intPart.fracPart` with no trailing zeros — exactly
JavaScript's shortest-roundtrip rendering on the decimals evaluated
here (the `1e21` exponent cutoff is far outside them). -/
def jsNumRepr (q : JsDec) : String :=
  if q.e = 0 then toString q.m
  else
    let n := q.m.natAbs
    let ip := n / 10 ^ q.e
    let fp := n % 10 ^ q.e
    (if q.m < 0 then "-" else "") ++ toString ip ++ "." ++
      zeroPadTo (toString fp) q.e

/-- The fingerprint template of index.js line 302 / line 518:
`` `${date.toISOString()}-${amount}-${type}-${description}-${category}` ``. -/
def mkFingerprint (d : CalDate) (amount : JsDec) (ty desc cat : String) : String :=
  isoString d ++ "-" ++ jsNumRepr amount ++ "-" ++ ty ++ "-" ++ desc ++ "-" ++ cat

/-- A raw CSV row after applying the column mapping: each canonical
field is the mapped cell, or `none` when the mapped header is absent. -/
structure RawRow where
  date : Option String
  amount : Option String
  type : Option String
  category : Option String
  description : Option String
deriving DecidableEq, Repr

/-- A validated transaction candidate (the object built at index.js
lines 273-305). -/
structure Candidate where
  userId : String
  date : CalDate
  amount : JsDec
  type : String
  category : String
  description : String
  fingerprint : String
  rowNumber : Nat
deriving DecidableEq, Repr

/-- Outcome of mapping one raw row. -/
inductive RowOutcome where
  | valid (c : Candidate)
  | skip (err : String)
deriving DecidableEq, Repr

/-- `parseDate(data[mapping.date])`: an absent cell is `undefined`,
which is falsy and yields null. -/
def parseDateField (o : Option String) : Option CalDate :=
  match o with
  | none => none
  | some s => parseDate s

/-- The amount a row is charged with:
`parseFloat((data[mapping.amount] || '0').replace(/[^0-9.-]+/g, ''))`,
with `NaN` replaced by `0`. -/
def amountOf (r : RawRow) : JsDec :=
  match parseJsFloat (stripAmount (jsOr r.amount "0")) with
  | none => ⟨0, 0⟩
  | some q => q

/-- The row mapper of the import loop (index.js lines 264-310): parse
the date and amount, then validate the date first (`Invalid date
format`), then the amount (`Invalid amount`), then default an
unrecognized type to `expense` and attach the fingerprint. -/
def classifyRow (uid : String) (rowNumber : Nat) (r : RawRow) : RowOutcome :=
  let parsedDate := parseDateField r.date
  let amount := amountOf r
  match parsedDate with
  | none => .skip "Invalid date format"
  | some d =>
    if amount.m ≤ 0 then .skip "Invalid amount"
    else
      let ty0 := jsToLower (jsOr r.type "expense")
      let ty := if ty0 == "income" || ty0 == "expense" then ty0 else "expense"
      let cat := jsOr r.category "Uncategorized"
      let desc := jsOr r.description ""
      .valid ⟨uid, d, amount, ty, cat, desc, mkFingerprint d amount ty desc cat, rowNumber⟩

/-- The streaming parse/validate phase: classify each data row in order,
numbering rows from `n` (the caller starts at 1; the header row is not a
data row).  Returns the valid candidates and the recorded row errors;
each error was counted in `skippedRows` when it was recorded. -/
def parsePhase (uid : String) (n : Nat) (rows : List RawRow) :
    List Candidate × List (Nat × String) :=
  match rows with
  | [] => ([], [])
  | r :: rest =>
    match classifyRow uid n r, parsePhase uid (n + 1) rest with
    | .valid c, (cs, es) => (c :: cs, es)
    | .skip e, (cs, es) => (cs, (n, e) :: es)

/-- A persisted Transaction document (schema at index.js lines 82-100). -/
structure StoredTx where
  id : Nat
  userId : String
  date : CalDate
  amount : JsDec
  type : String
  category : String
  description : String
  fingerprint : String
  isDeleted : Bool
deriving DecidableEq, Repr

/-- The transactions collection, with the id counter for fresh `_id`s. -/
structure DB where
  nextId : Nat
  txs : List StoredTx
deriving DecidableEq, Repr

/-- Whether `t` is the document `findOne({ userId, fingerprint })`
matches. -/
def txMatches (uid fp : String) (t : StoredTx) : Bool :=
  t.userId == uid && t.fingerprint == fp

/-- `Transaction.findOne({ userId, fingerprint })`. -/
def findByFp (db : DB) (uid fp : String) : Option StoredTx :=
  db.txs.find? (txMatches uid fp)

/-- The storage layer's unique-index invariant on `(userId, fingerprint)`
(index.js line 96): no two documents, active or soft-deleted, share the
pair. -/
def uniqueIndexOk (db : DB) : Prop :=
  db.txs.Pairwise (fun a b => ¬(a.userId = b.userId ∧ a.fingerprint = b.fingerprint))

/-- The invariant of the specification: at most one *active* Transaction
per `(ownerId, fingerprint)` pair. -/
def activeUnique (db : DB) : Prop :=
  db.txs.Pairwise (fun a b =>
    ¬(a.isDeleted = false ∧ b.isDeleted = false ∧
      a.userId = b.userId ∧ a.fingerprint = b.fingerprint))

instance (db : DB) : Decidable (uniqueIndexOk db) := by
  unfold uniqueIndexOk
  infer_instance

instance (db : DB) : Decidable (activeUnique db) := by
  unfold activeUnique
  infer_instance

/-- Append a fresh document for candidate `c` (a successful
`new Transaction(record).save()`). -/
def insertNew (db : DB) (c : Candidate) : DB :=
  { nextId := db.nextId + 1,
    txs := db.txs ++ [⟨db.nextId, c.userId, c.date, c.amount, c.type,
                       c.category, c.description, c.fingerprint, false⟩] }

/-- The restore-from-trash write (index.js lines 351-359): on the
matching document clear `isDeleted` and overwrite date, amount, type,
category and description from the candidate.  The stored fingerprint is
not reassigned (it already equals the candidate's).  The id is kept. -/
def restoreTx (t : StoredTx) (c : Candidate) : StoredTx :=
  { t with isDeleted := false, date := c.date, amount := c.amount,
           type := c.type, category := c.category, description := c.description }

/-- Replace the document matching `(uid, fp)` by its restored form. -/
def restoreInPlace (db : DB) (c : Candidate) : DB :=
  { db with txs := db.txs.map (fun t =>
      if txMatches c.userId c.fingerprint t then restoreTx t c else t) }

/-- Behavior of one `save()` attempt beyond the duplicate-key check:
`nominal` is a save that passes Mongoose's pre-save schema validation
and then follows the state (duplicate-key error exactly when a
`(userId, fingerprint)` match exists); `phantomDup` is a duplicate-key
error whose matching document the follow-up `findOne` does not see (a
race outside the import path); `saveError` is any non-11000 error —
this includes a schema-validation failure, which Mongoose raises before
the insert is attempted: the schema's required-string fields (index.js
lines 87-90) reject the empty string, so a candidate whose description
is `""` always takes the `saveError` path with a ValidationError, never
the `nominal` one; `findFail` makes the follow-up `findOne` itself
throw. -/
inductive Fault where
  | nominal
  | phantomDup
  | saveError (msg : String)
  | findFail
deriving DecidableEq, Repr

/-- How one candidate left the insert loop. -/
inductive Outcome where
  | inserted
  | duplicate
  | errored (row : Nat) (msg : String)
deriving DecidableEq, Repr

/-- One iteration of the insert loop (index.js lines 335-379): try to
save; on a duplicate-key error look the document up, restore it in
place when soft-deleted, count it as a duplicate when active (or when
the lookup fails), and record a row error when no document is found;
other save errors — Mongoose schema-validation failures included, see
`Fault.saveError` — are recorded as row errors.  Theorems that use the
`nominal` fault at a concrete candidate therefore do so only for
schema-valid candidates (all string fields nonempty). -/
def commitRecord (db : DB) (c : Candidate) (f : Fault) : DB × Outcome :=
  match f with
  | .saveError msg => (db, .errored c.rowNumber msg)
  | _ =>
    match findByFp db c.userId c.fingerprint with
    | none =>
      match f with
      | .phantomDup => (db, .errored c.rowNumber "Duplicate transaction exists in system")
      | _ => (insertNew db c, .inserted)
    | some t =>
      match f with
      | .findFail => (db, .duplicate)
      | _ =>
        if t.isDeleted then (restoreInPlace db c, .inserted)
        else (db, .duplicate)

/-- Counters accumulated by the insert loop. -/
structure CommitSummary where
  inserted : Nat
  duplicates : Nat
  errors : List (Nat × String)
deriving DecidableEq, Repr

/-- Run the insert loop over all candidates, consuming one fault per
record (missing entries behave nominally). -/
def commitAll (db : DB) (cs : List Candidate) (fs : List Fault) : DB × CommitSummary :=
  match cs with
  | [] => (db, ⟨0, 0, []⟩)
  | c :: rest =>
    match commitRecord db c (fs.headD .nominal) with
    | (db1, out) =>
      match commitAll db1 rest fs.tail, out with
      | (db2, s), .inserted => (db2, ⟨s.inserted + 1, s.duplicates, s.errors⟩)
      | (db2, s), .duplicate => (db2, ⟨s.inserted, s.duplicates + 1, s.errors⟩)
      | (db2, s), .errored row msg => (db2, ⟨s.inserted, s.duplicates, (row, msg) :: s.errors⟩)

/-- The response summary of one import run (index.js lines 423-441). -/
structure ImportResult where
  db : DB
  totalRows : Nat
  insertedRows : Nat
  skippedRows : Nat
  duplicateRows : Nat
  errors : List (Nat × String)
  insertPhaseErrors : Nat
deriving DecidableEq, Repr

/-- The whole import pipeline for one request: stream the rows through
the row mapper, then run the insert loop under the given storage
faults.  `errors` collects the parse-phase errors (each counted in
`skippedRows` when recorded) followed by the insert-phase errors (never
counted in `skippedRows`). -/
def runImport (db : DB) (uid : String) (rows : List RawRow) (fs : List Fault) :
    ImportResult :=
  let parsed := parsePhase uid 1 rows
  let committed := commitAll db parsed.1 fs
  { db := committed.1,
    totalRows := rows.length,
    insertedRows := committed.2.inserted,
    skippedRows := parsed.2.length,
    duplicateRows := committed.2.duplicates,
    errors := parsed.2 ++ committed.2.errors,
    insertPhaseErrors := committed.2.errors.length }

/-- Body of `POST /api/transactions` (index.js lines 654-663): the
client-supplied document fields, spread under the authenticated user. -/
structure TxPayload where
  date : CalDate
  amount : JsDec
  type : String
  category : String
  description : String
  fingerprint : String
  isDeleted : Bool
deriving DecidableEq, Repr

/-- `POST /api/transactions`: `new Transaction({...body, userId}).save()`.
A duplicate-key violation of the `(userId, fingerprint)` unique index
surfaces as a 500 response and writes nothing. -/
def createTx (db : DB) (uid : String) (p : TxPayload) : DB :=
  if db.txs.any (txMatches uid p.fingerprint) then db
  else
    { nextId := db.nextId + 1,
      txs := db.txs ++ [⟨db.nextId, uid, p.date, p.amount, p.type,
                         p.category, p.description, p.fingerprint, p.isDeleted⟩] }

/-- `PUT /api/transactions/:id` (index.js lines 683-707):
`findOneAndUpdate({ _id, userId }, { date, amount, type, category,
description })` — the fingerprint and the soft-delete flag are not
touched.  `_id` values are unique, so at most one document matches. -/
def updateTx (db : DB) (uid : String) (id : Nat) (d : CalDate) (a : JsDec)
    (ty cat desc : String) : DB :=
  { db with txs := db.txs.map (fun t =>
      if t.id == id && t.userId == uid then
        { t with date := d, amount := a, type := ty, category := cat,
                 description := desc }
      else t) }

/-- `DELETE /api/transactions/:id` (index.js lines 665-681): a soft
delete, `findOneAndUpdate({ _id, userId }, { isDeleted: true })`. -/
def softDeleteTx (db : DB) (uid : String) (id : Nat) : DB :=
  { db with txs := db.txs.map (fun t =>
      if t.id == id && t.userId == uid then { t with isDeleted := true } else t) }

/-- Every operation of the API that writes the Transactions collection
(the soft-delete restore happens inside the import run). -/
inductive TxOp where
  | importRun (uid : String) (rows : List RawRow) (fs : List Fault)
  | create (uid : String) (p : TxPayload)
  | update (uid : String) (id : Nat) (date : CalDate) (amount : JsDec)
      (ty cat desc : String)
  | softDelete (uid : String) (id : Nat)

/-- Apply one write operation to the collection. -/
def applyOp (db : DB) : TxOp → DB
  | .importRun uid rows fs => (runImport db uid rows fs).db
  | .create uid p => createTx db uid p
  | .update uid id d a ty cat desc => updateTx db uid id d a ty cat desc
  | .softDelete uid id => softDeleteTx db uid id

/-- Predetermined outcome of one enqueued commit task: it either
fulfills or rejects with an error. -/
inductive TaskBehavior where
  | ok
  | fail (e : String)
deriving DecidableEq, Repr

/-- Settlement of a promise in the chain: the handle of a successful
task fulfills with the task's return value (the tests return the
received `commitOrder`, kept here), a failing task's handle rejects
with its error. -/
inductive Settle where
  | value (order : Nat)
  | thrown (e : String)
deriving DecidableEq, Repr

/-- `previous.then(onFulfilled, onRejected)`: once `previous` settles,
the fulfillment handler runs on a fulfillment and the rejection handler
on a rejection.  At the enqueue site both handlers are the same
`runTask` (importCommitQueue.js line 23). -/
def promiseThen (prev : Settle) (onFulfilled : Unit → Settle)
    (onRejected : Unit → Settle) : Settle :=
  match prev with
  | .value _ => onFulfilled ()
  | .thrown _ => onRejected ()

/-- `runTask` (importCommitQueue.js lines 18-21): draw the next commit
order for the key and run the task with it. -/
def runTask (order : Nat) (b : TaskBehavior) : Settle :=
  match b with
  | .ok => .value order
  | .fail e => .thrown e

/-- The handles returned by successive `enqueue` calls for one key,
starting from commit counter `counter` and chain tail `prev`: each link
is `previous.then(runTask, runTask)` and its own settlement becomes the
next link's `previous`. -/
def chainHandles (counter : Nat) (prev : Settle) (bs : List TaskBehavior) :
    List Settle :=
  match bs with
  | [] => []
  | b :: rest =>
    let cur := promiseThen prev (fun _ => runTask (counter + 1) b)
                                (fun _ => runTask (counter + 1) b)
    cur :: chainHandles (counter + 1) cur rest

/-- Status of one enqueued task in the scheduling model: not yet begun,
begun with its assigned commit order, or settled. -/
inductive TaskStatus where
  | pending
  | running (order : Nat)
  | settled (order : Nat)
deriving DecidableEq, Repr

/-- One enqueued task: its predetermined behavior and current status. -/
structure TaskRec where
  behav : TaskBehavior
  status : TaskStatus
deriving DecidableEq, Repr

/-- Per-key state of the `ImportCommitQueue`: the `commitCounters` entry
and the chain of tasks enqueued so far under this key. -/
structure KState where
  counter : Nat
  tasks : List TaskRec
deriving DecidableEq, Repr

/-- The whole queue: a finite map from owner key to its chain, as the
two `Map`s of the source keyed by `String(userId)`. -/
abbrev QState : Type := List (String × KState)

/-- Look a key up; an absent key behaves as a fresh empty chain
(`this.queues.get(key) || Promise.resolve()`, counter `0`). -/
def getK (s : QState) (k : String) : KState :=
  (((s.find? (fun p => p.1 == k)).map Prod.snd)).getD ⟨0, []⟩

/-- Store a key's state. -/
def setK (s : QState) (k : String) (v : KState) : QState :=
  match s with
  | [] => [(k, v)]
  | (k1, v1) :: rest => if k1 == k then (k, v) :: rest else (k1, v1) :: setK rest k v

/-- Start the first task of the chain whose turn has come: walk past the
settled prefix; if the next task is pending (its predecessor's promise
has settled — `previous.then(runTask, runTask)` fires `runTask` on
either settlement), mark it running with the freshly drawn order.  No
task can start while another task of the same key runs, because the
running task's promise has not settled. -/
def startFirst (ts : List TaskRec) (o : Nat) : Option (List TaskRec) :=
  match ts with
  | [] => none
  | t :: rest =>
    match t.status with
    | .settled o1 => (startFirst rest o).map (⟨t.behav, .settled o1⟩ :: ·)
    | .pending => some (⟨t.behav, .running o⟩ :: rest)
    | .running _ => none

/-- Settle the running task of the chain, fulfilling or rejecting its
handle according to the task's own outcome. -/
def finishRunning (ts : List TaskRec) : Option (List TaskRec) :=
  match ts with
  | [] => none
  | t :: rest =>
    match t.status with
    | .settled o1 => (finishRunning rest).map (⟨t.behav, .settled o1⟩ :: ·)
    | .running o => some (⟨t.behav, .settled o⟩ :: rest)
    | .pending => none

/-- Events of the queue: an `enqueue` call for a key, a task of a key
beginning to execute, and a task of a key settling.  The scheduler may
interleave these freely across keys; within a key the promise chain
constrains them. -/
inductive QStep where
  | enqueue (k : String) (b : TaskBehavior)
  | start (k : String)
  | finish (k : String)
deriving DecidableEq, Repr

/-- The key an event belongs to. -/
def stepKey : QStep → String
  | .enqueue k _ => k
  | .start k => k
  | .finish k => k

/-- Effect of an event on its own key's chain; `none` when the event is
not enabled.  `enqueue` appends a pending task and is always enabled; it
does not touch the commit counter — the order is drawn inside `runTask`,
when the task begins executing (`getNextCommitOrder` at
importCommitQueue.js line 19). -/
def stepK (ks : KState) : QStep → Option KState
  | .enqueue _ b => some ⟨ks.counter, ks.tasks ++ [⟨b, .pending⟩]⟩
  | .start _ =>
    match startFirst ks.tasks (ks.counter + 1) with
    | some ts => some ⟨ks.counter + 1, ts⟩
    | none => none
  | .finish _ =>
    match finishRunning ks.tasks with
    | some ts => some ⟨ks.counter, ts⟩
    | none => none

/-- One scheduling step of the whole queue: the event reads and writes
only its own key's entry in the maps. -/
def applyStep (s : QState) (st : QStep) : Option QState :=
  (stepK (getK s (stepKey st)) st).map (setK s (stepKey st))

/-- Run a sequence of scheduling events. -/
def execTrace (s : QState) : List QStep → Option QState
  | [] => some s
  | st :: rest =>
    match applyStep s st with
    | some s1 => execTrace s1 rest
    | none => none

/-- The queue as constructed: both maps empty. -/
def initQ : QState := []

/-- Orders assigned so far on a chain, in task (enqueue) order. -/
def ordersOf (ts : List TaskRec) : List Nat :=
  ts.filterMap (fun t =>
    match t.status with
    | .pending => none
    | .running o => some o
    | .settled o => some o)

/-- Number of tasks that have begun executing. -/
def countStarted (ts : List TaskRec) : Nat :=
  (ordersOf ts).length

/-- Every task still pending. -/
def allPending (ts : List TaskRec) : Bool :=
  ts.all (fun t =>
    match t.status with
    | .pending => true
    | _ => false)

/-- The chain shape the promise semantics maintains: a settled prefix,
then at most one running task, then only pending tasks.  In particular
tasks begin executing in enqueue order and never interleave. -/
def chainShape (ts : List TaskRec) : Bool :=
  match ts with
  | [] => true
  | t :: rest =>
    match t.status with
    | .settled _ => chainShape rest
    | .running _ => allPending rest
    | .pending => allPending rest

/-- The started prefix carries the consecutive orders `n, n+1, ...`. -/
def ordersFrom (n : Nat) (ts : List TaskRec) : Bool :=
  match ts with
  | [] => true
  | t :: rest =>
    match t.status with
    | .pending => true
    | .running o => o == n
    | .settled o => o == n && ordersFrom (n + 1) rest

/-- The per-key invariant the promise chain maintains: well-shaped
statuses (settled prefix, at most one running task, pending suffix),
the started prefix numbered 1, 2, ... in enqueue order, and the commit
counter equal to the number of started tasks. -/
def InvK (ks : KState) : Prop :=
  chainShape ks.tasks = true ∧ ordersFrom 1 ks.tasks = true ∧
  ks.counter = countStarted ks.tasks

theorem isDig_eq_false_of_isSep (c : Char) (h : isSep c = true) : isDig c = false := by
  unfold isSep at h
  unfold isDig
  rcases Bool.or_eq_true_iff.mp h with h1 | h1
  · rw [show c = '/' from beq_iff_eq.mp h1]
    decide
  · rw [show c = '-' from beq_iff_eq.mp h1]
    decide

theorem matchIso_eq_none_of_matchD2Sep (cs : List Char) (r : Nat × List Char)
    (h : matchD2Sep cs = some r) : matchIso cs = none := by
  rcases cs with _ | ⟨a, _ | ⟨b, _ | ⟨c, rest⟩⟩⟩
  · simp [matchD2Sep] at h
  · by_cases ha : isDig a = true <;> simp [matchD2Sep, ha] at h
  · by_cases ha : isDig a = true
    · by_cases hb : isDig b = true
      · simp [matchD2Sep, ha, hb] at h
      · have hbd : isDig b = false := by simpa using hb
        simp [matchIso, matchDigits, ha, hbd]
    · simp [matchD2Sep, ha] at h
  · by_cases ha : isDig a = true
    · by_cases hb : isDig b = true
      · by_cases hc : isSep c = true
        · have hcd : isDig c = false := isDig_eq_false_of_isSep c hc
          simp [matchIso, matchDigits, ha, hb, hcd]
        · simp [matchD2Sep, ha, hb, hc] at h
      · by_cases hbs : isSep b = true
        · have hbd : isDig b = false := isDig_eq_false_of_isSep b hbs
          simp [matchIso, matchDigits, ha, hbd]
        · simp [matchD2Sep, ha, hb, hbs] at h
    · simp [matchD2Sep, ha] at h

theorem matchD2Sep_of_matchSlashDate (cs : List Char) (c1 c2 y : Nat)
    (rest : List Char) (h : matchSlashDate cs = some (c1, c2, y, rest)) :
    ∃ r, matchD2Sep cs = some r := by
  unfold matchSlashDate at h
  cases hm : matchD2Sep cs with
  | none => rw [hm] at h; cases h
  | some r => exact ⟨r, rfl⟩

theorem parsePhase_length (uid : String) (rows : List RawRow) (n : Nat) :
    (parsePhase uid n rows).1.length + (parsePhase uid n rows).2.length =
      rows.length := by
  induction rows generalizing n with
  | nil => rfl
  | cons r rest ih =>
    have h2 := ih (n + 1)
    simp only [parsePhase]
    rcases h1 : classifyRow uid n r with c | e <;>
      rcases h3 : parsePhase uid (n + 1) rest with ⟨cs, es⟩ <;>
      rw [h3] at h2 <;> simp only [List.length_cons] at h2 ⊢ <;> omega

theorem commitAll_counts (cs : List Candidate) (db : DB) (fs : List Fault) :
    (commitAll db cs fs).2.inserted + (commitAll db cs fs).2.duplicates +
      (commitAll db cs fs).2.errors.length = cs.length := by
  induction cs generalizing db fs with
  | nil => rfl
  | cons c rest ih =>
    simp only [commitAll]
    rcases hst : commitRecord db c (fs.headD .nominal) with ⟨db1, out⟩
    have h2 := ih db1 fs.tail
    rcases h3 : commitAll db1 rest fs.tail with ⟨db2, s⟩
    rw [h3] at h2
    cases out <;> simp only [List.length_cons] at h2 ⊢ <;> omega

theorem txMatches_iff (uid fp : String) (t : StoredTx) :
    txMatches uid fp t = true ↔ t.userId = uid ∧ t.fingerprint = fp := by
  simp [txMatches, Bool.and_eq_true, beq_iff_eq]

theorem activeUnique_of_uniqueIndexOk (db : DB) (h : uniqueIndexOk db) :
    activeUnique db := by
  refine h.imp ?_
  intro a b hab hcon
  exact hab ⟨hcon.2.2.1, hcon.2.2.2⟩

theorem uniqueIndexOk_map (db : DB) (n : Nat) (f : StoredTx → StoredTx)
    (hf : ∀ t, (f t).userId = t.userId ∧ (f t).fingerprint = t.fingerprint)
    (h : uniqueIndexOk db) : uniqueIndexOk ⟨n, db.txs.map f⟩ := by
  unfold uniqueIndexOk at h ⊢
  rw [List.pairwise_map]
  refine h.imp ?_
  intro a b hab hcon
  apply hab
  rcases hcon with ⟨h1, h2⟩
  rw [(hf a).1, (hf b).1] at h1
  rw [(hf a).2, (hf b).2] at h2
  exact ⟨h1, h2⟩

theorem uniqueIndexOk_append (db : DB) (n : Nat) (t : StoredTx)
    (h : uniqueIndexOk db)
    (hnone : findByFp db t.userId t.fingerprint = none) :
    uniqueIndexOk ⟨n, db.txs ++ [t]⟩ := by
  unfold uniqueIndexOk at h ⊢
  rw [List.pairwise_append]
  refine ⟨h, List.pairwise_singleton _ _, ?_⟩
  intro a ha b hb
  rw [List.mem_singleton] at hb
  subst hb
  intro hcon
  have hfalse := List.find?_eq_none.mp hnone a ha
  apply hfalse
  rw [txMatches_iff]
  exact hcon

theorem uniqueIndexOk_insertNew (db : DB) (c : Candidate)
    (h : uniqueIndexOk db) (hn : findByFp db c.userId c.fingerprint = none) :
    uniqueIndexOk (insertNew db c) := by
  unfold insertNew
  exact uniqueIndexOk_append db _ _ h hn

theorem uniqueIndexOk_restoreInPlace (db : DB) (c : Candidate)
    (h : uniqueIndexOk db) : uniqueIndexOk (restoreInPlace db c) := by
  unfold restoreInPlace
  refine uniqueIndexOk_map db _ _ ?_ h
  intro t
  by_cases hm : txMatches c.userId c.fingerprint t = true <;>
    simp [hm, restoreTx]

theorem uniqueIndexOk_commitRecord (db : DB) (c : Candidate) (f : Fault)
    (h : uniqueIndexOk db) : uniqueIndexOk (commitRecord db c f).1 := by
  cases f with
  | saveError msg => exact h
  | phantomDup =>
    simp only [commitRecord]
    cases hfind : findByFp db c.userId c.fingerprint with
    | none => exact h
    | some t =>
      by_cases ht : t.isDeleted = true
      · simp only [ht, if_true]
        exact uniqueIndexOk_restoreInPlace db c h
      · simp only [ht, if_false]
        exact h
  | findFail =>
    simp only [commitRecord]
    cases hfind : findByFp db c.userId c.fingerprint with
    | none => exact uniqueIndexOk_insertNew db c h hfind
    | some t => exact h
  | nominal =>
    simp only [commitRecord]
    cases hfind : findByFp db c.userId c.fingerprint with
    | none => exact uniqueIndexOk_insertNew db c h hfind
    | some t =>
      by_cases ht : t.isDeleted = true
      · simp only [ht, if_true]
        exact uniqueIndexOk_restoreInPlace db c h
      · simp only [ht, if_false]
        exact h

theorem uniqueIndexOk_commitAll (cs : List Candidate) (db : DB) (fs : List Fault)
    (h : uniqueIndexOk db) : uniqueIndexOk (commitAll db cs fs).1 := by
  induction cs generalizing db fs with
  | nil => exact h
  | cons c rest ih =>
    simp only [commitAll]
    rcases hst : commitRecord db c (fs.headD .nominal) with ⟨db1, out⟩
    have h1 : uniqueIndexOk db1 := by
      have h2 := uniqueIndexOk_commitRecord db c (fs.headD .nominal) h
      rw [hst] at h2
      exact h2
    have h3 := ih db1 fs.tail h1
    rcases h4 : commitAll db1 rest fs.tail with ⟨db2, s⟩
    rw [h4] at h3
    cases out <;> exact h3

/-- C2: every write of the Transactions collection — the import run
(insert and restore-from-trash included), direct create, update and
soft delete — preserves the storage layer's unique-index invariant on
`(userId, fingerprint)` and with it the spec's invariant that at most
one active Transaction exists per `(ownerId, fingerprint)` pair; on a
fingerprint held by a soft-deleted record, the import restores that
record in place instead of creating a second one. -/
theorem tx_writes_preserve_active_uniqueness (db : DB) (op : TxOp)
    (h : uniqueIndexOk db) :
    uniqueIndexOk (applyOp db op) ∧ activeUnique (applyOp db op) := by
  have hmain : uniqueIndexOk (applyOp db op) := by
    cases op with
    | importRun uid rows fs =>
      show uniqueIndexOk (commitAll db (parsePhase uid 1 rows).1 fs).1
      exact uniqueIndexOk_commitAll _ _ _ h
    | create uid p =>
      simp only [applyOp, createTx]
      by_cases hex : db.txs.any (txMatches uid p.fingerprint) = true
      · rw [if_pos hex]
        exact h
      · rw [if_neg hex]
        refine uniqueIndexOk_append db _ _ h ?_
        show findByFp db uid p.fingerprint = none
        unfold findByFp
        rw [List.find?_eq_none]
        intro x hx hpx
        exact hex (List.any_eq_true.mpr ⟨x, hx, hpx⟩)
    | update uid id d a ty cat desc =>
      unfold applyOp updateTx
      refine uniqueIndexOk_map db _ _ ?_ h
      intro t
      by_cases hc : (t.id == id && t.userId == uid) = true <;> simp [hc]
    | softDelete uid id =>
      unfold applyOp softDeleteTx
      refine uniqueIndexOk_map db _ _ ?_ h
      intro t
      by_cases hc : (t.id == id && t.userId == uid) = true <;> simp [hc]
  exact ⟨hmain, activeUnique_of_uniqueIndexOk _ hmain⟩

/-- Witness for C2 at a ledger holding one soft-deleted record and a
direct create of a fresh fingerprint. -/
theorem tx_writes_preserve_active_uniqueness_witness :
    uniqueIndexOk ⟨1, [⟨0, "u", ⟨2024, 3, 5⟩, ⟨10, 0⟩, "expense", "Food",
      "Dinner", "fp1", true⟩]⟩ ∧
    uniqueIndexOk (applyOp ⟨1, [⟨0, "u", ⟨2024, 3, 5⟩, ⟨10, 0⟩, "expense",
      "Food", "Dinner", "fp1", true⟩]⟩
      (.create "u" ⟨⟨2024, 3, 6⟩, ⟨5, 0⟩, "income", "Salary", "pay", "fp2", false⟩)) ∧
    activeUnique (applyOp ⟨1, [⟨0, "u", ⟨2024, 3, 5⟩, ⟨10, 0⟩, "expense",
      "Food", "Dinner", "fp1", true⟩]⟩
      (.create "u" ⟨⟨2024, 3, 6⟩, ⟨5, 0⟩, "income", "Salary", "pay", "fp2", false⟩)) := by
  have h1 : uniqueIndexOk ⟨1, [⟨0, "u", ⟨2024, 3, 5⟩, ⟨10, 0⟩, "expense",
      "Food", "Dinner", "fp1", true⟩]⟩ := by decide
  exact ⟨h1,
    (tx_writes_preserve_active_uniqueness _ _ h1).1,
    (tx_writes_preserve_active_uniqueness _ _ h1).2⟩

theorem findByFp_restoreInPlace (db : DB) (c : Candidate) (uid fp : String) :
    findByFp (restoreInPlace db c) uid fp =
      (findByFp db uid fp).map (fun t =>
        if txMatches c.userId c.fingerprint t then restoreTx t c else t) := by
  unfold findByFp restoreInPlace
  rw [List.find?_map]
  have hp : (txMatches uid fp ∘ fun t =>
      if txMatches c.userId c.fingerprint t then restoreTx t c else t) =
        txMatches uid fp := by
    funext u
    simp only [Function.comp]
    by_cases hm : txMatches c.userId c.fingerprint u = true
    · rw [if_pos hm]
      rfl
    · rw [if_neg hm]
  rw [hp]

/-- C6: when the owner's ledger holds a soft-deleted record with the
candidate's fingerprint, the nominal insert step restores it in place:
the outcome is counted as inserted (`insertedRows` grows by one in
`commitAll`), the record ids of the collection are unchanged (so no new
record id and no new record), and the matched record now has
`isDeleted` cleared and date, amount, type, category and description
overwritten from the candidate, keeping its id. -/
theorem import_restores_soft_deleted (db : DB) (c : Candidate) (t : StoredTx)
    (hf : findByFp db c.userId c.fingerprint = some t)
    (hd : t.isDeleted = true) :
    commitRecord db c .nominal = (restoreInPlace db c, .inserted) ∧
    (restoreInPlace db c).txs.map StoredTx.id = db.txs.map StoredTx.id ∧
    (restoreInPlace db c).txs.length = db.txs.length ∧
    findByFp (restoreInPlace db c) c.userId c.fingerprint =
      some (restoreTx t c) ∧
    (restoreTx t c).isDeleted = false ∧
    (restoreTx t c).id = t.id ∧
    (restoreTx t c).date = c.date ∧
    (restoreTx t c).amount = c.amount ∧
    (restoreTx t c).type = c.type ∧
    (restoreTx t c).category = c.category ∧
    (restoreTx t c).description = c.description := by
  have hmatch : txMatches c.userId c.fingerprint t = true := List.find?_some hf
  refine ⟨?_, ?_, ?_, ?_, rfl, rfl, rfl, rfl, rfl, rfl, rfl⟩
  · show (match findByFp db c.userId c.fingerprint with
      | none => (insertNew db c, Outcome.inserted)
      | some t1 =>
        if t1.isDeleted then (restoreInPlace db c, Outcome.inserted)
        else (db, Outcome.duplicate)) = (restoreInPlace db c, Outcome.inserted)
    rw [hf]
    simp only [hd, if_true]
  · show (db.txs.map _).map StoredTx.id = db.txs.map StoredTx.id
    rw [List.map_map]
    have hid : (StoredTx.id ∘ fun u =>
        if txMatches c.userId c.fingerprint u then restoreTx u c else u) =
          StoredTx.id := by
      funext u
      simp only [Function.comp]
      by_cases hm : txMatches c.userId c.fingerprint u = true
      · rw [if_pos hm]
        rfl
      · rw [if_neg hm]
    rw [hid]
  · show (db.txs.map _).length = db.txs.length
    exact List.length_map _ _
  · rw [findByFp_restoreInPlace, hf]
    show some (if txMatches c.userId c.fingerprint t then restoreTx t c else t) =
      some (restoreTx t c)
    rw [if_pos hmatch]

/-- Witness for C6: a one-record ledger holding a soft-deleted document
with the candidate's fingerprint. -/
theorem import_restores_soft_deleted_witness :
    commitRecord ⟨1, [⟨0, "u", ⟨2024, 1, 1⟩, ⟨7, 0⟩, "income", "Old", "old",
        "2024-03-05T00:00:00.000Z-10-expense-d-c", true⟩]⟩
      ⟨"u", ⟨2024, 3, 5⟩, ⟨10, 0⟩, "expense", "c", "d",
        "2024-03-05T00:00:00.000Z-10-expense-d-c", 1⟩ .nominal =
      (restoreInPlace ⟨1, [⟨0, "u", ⟨2024, 1, 1⟩, ⟨7, 0⟩, "income", "Old",
        "old", "2024-03-05T00:00:00.000Z-10-expense-d-c", true⟩]⟩
        ⟨"u", ⟨2024, 3, 5⟩, ⟨10, 0⟩, "expense", "c", "d",
          "2024-03-05T00:00:00.000Z-10-expense-d-c", 1⟩, .inserted) ∧
    (restoreTx ⟨0, "u", ⟨2024, 1, 1⟩, ⟨7, 0⟩, "income", "Old", "old",
        "2024-03-05T00:00:00.000Z-10-expense-d-c", true⟩
      ⟨"u", ⟨2024, 3, 5⟩, ⟨10, 0⟩, "expense", "c", "d",
        "2024-03-05T00:00:00.000Z-10-expense-d-c", 1⟩).isDeleted = false := by
  have h := import_restores_soft_deleted
    ⟨1, [⟨0, "u", ⟨2024, 1, 1⟩, ⟨7, 0⟩, "income", "Old", "old",
      "2024-03-05T00:00:00.000Z-10-expense-d-c", true⟩]⟩
    ⟨"u", ⟨2024, 3, 5⟩, ⟨10, 0⟩, "expense", "c", "d",
      "2024-03-05T00:00:00.000Z-10-expense-d-c", 1⟩
    ⟨0, "u", ⟨2024, 1, 1⟩, ⟨7, 0⟩, "income", "Old", "old",
      "2024-03-05T00:00:00.000Z-10-expense-d-c", true⟩
    (by decide) (by decide)
  exact ⟨h.1, h.2.2.2.2.1⟩

theorem findByFp_insertNew_of_some (db : DB) (c : Candidate) (uid fp : String)
    (t : StoredTx) (h : findByFp db uid fp = some t) :
    findByFp (insertNew db c) uid fp = some t := by
  unfold findByFp at h ⊢
  unfold insertNew
  rw [List.find?_append, h]
  rfl

theorem commitRecord_keeps_active (db : DB) (c : Candidate) (f : Fault)
    (uid fp : String) (t : StoredTx) (h : findByFp db uid fp = some t)
    (ha : t.isDeleted = false) :
    ∃ t2, findByFp (commitRecord db c f).1 uid fp = some t2 ∧
      t2.isDeleted = false := by
  have hrestore : ∃ t2, findByFp (restoreInPlace db c) uid fp = some t2 ∧
      t2.isDeleted = false := by
    rw [findByFp_restoreInPlace, h]
    by_cases hm : txMatches c.userId c.fingerprint t = true
    · refine ⟨restoreTx t c, ?_, rfl⟩
      show some (if txMatches c.userId c.fingerprint t then restoreTx t c else t) =
        some (restoreTx t c)
      rw [if_pos hm]
    · refine ⟨t, ?_, ha⟩
      show some (if txMatches c.userId c.fingerprint t then restoreTx t c else t) =
        some t
      rw [if_neg hm]
  cases f with
  | saveError msg => exact ⟨t, h, ha⟩
  | phantomDup =>
    simp only [commitRecord]
    cases hfind : findByFp db c.userId c.fingerprint with
    | none => exact ⟨t, h, ha⟩
    | some t1 =>
      by_cases ht1 : t1.isDeleted = true
      · simp only [ht1, if_true]
        exact hrestore
      · simp only [ht1, if_false]
        exact ⟨t, h, ha⟩
  | findFail =>
    simp only [commitRecord]
    cases hfind : findByFp db c.userId c.fingerprint with
    | none => exact ⟨t, findByFp_insertNew_of_some db c uid fp t h, ha⟩
    | some t1 => exact ⟨t, h, ha⟩
  | nominal =>
    simp only [commitRecord]
    cases hfind : findByFp db c.userId c.fingerprint with
    | none => exact ⟨t, findByFp_insertNew_of_some db c uid fp t h, ha⟩
    | some t1 =>
      by_cases ht1 : t1.isDeleted = true
      · simp only [ht1, if_true]
        exact hrestore
      · simp only [ht1, if_false]
        exact ⟨t, h, ha⟩

theorem commitAll_keeps_active (cs : List Candidate) (db : DB) (fs : List Fault)
    (uid fp : String) (t : StoredTx) (h : findByFp db uid fp = some t)
    (ha : t.isDeleted = false) :
    ∃ t2, findByFp (commitAll db cs fs).1 uid fp = some t2 ∧
      t2.isDeleted = false := by
  induction cs generalizing db fs t with
  | nil => exact ⟨t, h, ha⟩
  | cons c rest ih =>
    simp only [commitAll]
    obtain ⟨t1, h1, ha1⟩ :=
      commitRecord_keeps_active db c (fs.headD .nominal) uid fp t h ha
    rcases hst : commitRecord db c (fs.headD .nominal) with ⟨db1, out⟩
    rw [hst] at h1
    obtain ⟨t2, h2, ha2⟩ := ih db1 fs.tail t1 h1 ha1
    rcases h3 : commitAll db1 rest fs.tail with ⟨db2, s⟩
    rw [h3] at h2
    cases out <;> exact ⟨t2, h2, ha2⟩

theorem commitRecord_inserted_active (db : DB) (c : Candidate) (f : Fault)
    (h : (commitRecord db c f).2 = .inserted) :
    ∃ t, findByFp (commitRecord db c f).1 c.userId c.fingerprint = some t ∧
      t.isDeleted = false := by
  have hself : txMatches c.userId c.fingerprint
      (⟨db.nextId, c.userId, c.date, c.amount, c.type, c.category,
        c.description, c.fingerprint, false⟩ : StoredTx) = true := by
    simp [txMatches]
  cases f with
  | saveError msg => cases h
  | phantomDup =>
    simp only [commitRecord] at h ⊢
    cases hfind : findByFp db c.userId c.fingerprint with
    | none => rw [hfind] at h; cases h
    | some t1 =>
      rw [hfind] at h
      by_cases ht1 : t1.isDeleted = true
      · simp only [ht1, if_true]
        rw [findByFp_restoreInPlace, hfind]
        refine ⟨restoreTx t1 c, ?_, rfl⟩
        show some (if txMatches c.userId c.fingerprint t1 then restoreTx t1 c
          else t1) = some (restoreTx t1 c)
        rw [if_pos (List.find?_some hfind)]
      · simp only [ht1, if_false] at h
        cases h
  | findFail =>
    simp only [commitRecord] at h ⊢
    cases hfind : findByFp db c.userId c.fingerprint with
    | none =>
      refine ⟨⟨db.nextId, c.userId, c.date, c.amount, c.type, c.category,
        c.description, c.fingerprint, false⟩, ?_, rfl⟩
      unfold findByFp insertNew
      rw [List.find?_append]
      unfold findByFp at hfind
      rw [hfind]
      show List.find? _ [_] = _
      rw [List.find?_cons, hself]
    | some t1 => rw [hfind] at h; cases h
  | nominal =>
    simp only [commitRecord] at h ⊢
    cases hfind : findByFp db c.userId c.fingerprint with
    | none =>
      refine ⟨⟨db.nextId, c.userId, c.date, c.amount, c.type, c.category,
        c.description, c.fingerprint, false⟩, ?_, rfl⟩
      unfold findByFp insertNew
      rw [List.find?_append]
      unfold findByFp at hfind
      rw [hfind]
      show List.find? _ [_] = _
      rw [List.find?_cons, hself]
    | some t1 =>
      rw [hfind] at h
      by_cases ht1 : t1.isDeleted = true
      · simp only [ht1, if_true]
        rw [findByFp_restoreInPlace, hfind]
        refine ⟨restoreTx t1 c, ?_, rfl⟩
        show some (if txMatches c.userId c.fingerprint t1 then restoreTx t1 c
          else t1) = some (restoreTx t1 c)
        rw [if_pos (List.find?_some hfind)]
      · simp only [ht1, if_false] at h
        cases h

theorem commitAll_all_inserted_active (cs : List Candidate) (db : DB)
    (fs : List Fault)
    (h : (commitAll db cs fs).2.inserted = cs.length) :
    ∀ c ∈ cs, ∃ t, findByFp (commitAll db cs fs).1 c.userId c.fingerprint =
      some t ∧ t.isDeleted = false := by
  induction cs generalizing db fs with
  | nil => intro c hc; cases hc
  | cons c0 rest ih =>
    have hcount := commitAll_counts rest ((commitRecord db c0 (fs.headD .nominal)).1) fs.tail
    rcases hst : commitRecord db c0 (fs.headD .nominal) with ⟨db1, out⟩
    rw [hst] at hcount
    rcases h3 : commitAll db1 rest fs.tail with ⟨db2, s⟩
    rw [h3] at hcount
    simp only [commitAll, hst, h3] at h ⊢
    cases out with
    | inserted =>
      have hcount2 : s.inserted + s.duplicates + s.errors.length = rest.length := by
        simpa using hcount
      have hrest : s.inserted = rest.length := by
        have h5 : s.inserted + 1 = rest.length + 1 := by simpa using h
        omega
      intro c hc
      rcases List.mem_cons.mp hc with hc0 | hcr
      · subst hc0
        obtain ⟨t1, h1, ha1⟩ := commitRecord_inserted_active db c (fs.headD .nominal)
          (by rw [hst])
        rw [hst] at h1
        obtain ⟨t2, h2, ha2⟩ :=
          commitAll_keeps_active rest db1 fs.tail c.userId c.fingerprint t1 h1 ha1
        rw [h3] at h2
        exact ⟨t2, h2, ha2⟩
      · have := ih db1 fs.tail (by rw [h3]; exact hrest) c hcr
        rw [h3] at this
        exact this
    | duplicate =>
      exfalso
      have hcount2 : s.inserted + s.duplicates + s.errors.length = rest.length := by
        simpa using hcount
      have h5 : s.inserted = rest.length + 1 := by simpa using h
      omega
    | errored row msg =>
      exfalso
      have hcount2 : s.inserted + s.duplicates + s.errors.length = rest.length := by
        simpa using hcount
      have h5 : s.inserted = rest.length + 1 := by simpa using h
      omega

theorem commitAll_nominal_dups (cs : List Candidate) (db : DB)
    (h : ∀ c ∈ cs, ∃ t, findByFp db c.userId c.fingerprint = some t ∧
      t.isDeleted = false) :
    commitAll db cs [] = (db, ⟨0, cs.length, []⟩) := by
  induction cs generalizing db with
  | nil => rfl
  | cons c rest ih =>
    obtain ⟨t, hf, ha⟩ := h c (List.mem_cons_self c rest)
    have hstep : commitRecord db c (([] : List Fault).headD .nominal) =
        (db, .duplicate) := by
      show (match findByFp db c.userId c.fingerprint with
        | none => (insertNew db c, Outcome.inserted)
        | some t1 =>
          if t1.isDeleted then (restoreInPlace db c, Outcome.inserted)
          else (db, Outcome.duplicate)) = (db, Outcome.duplicate)
      rw [hf]
      show (if t.isDeleted then (restoreInPlace db c, Outcome.inserted)
        else (db, Outcome.duplicate)) = (db, Outcome.duplicate)
      rw [ha]
      rfl
    have hrest := ih db (fun c1 hc1 => h c1 (List.mem_cons_of_mem c hc1))
    simp only [commitAll, hstep, List.tail_nil, hrest]
    rfl

/-- C3: if importing a file once inserted every valid row (insertedRows
equals the number of valid candidates), then importing the identical
file again inserts nothing, classifies every valid row as an active
duplicate (`duplicateRows` = number of valid rows), and leaves the
owner's ledger unchanged. -/
theorem reimport_identical_file (db : DB) (uid : String) (rows : List RawRow)
    (hfull : (runImport db uid rows []).insertedRows =
      (parsePhase uid 1 rows).1.length) :
    (runImport (runImport db uid rows []).db uid rows []).insertedRows = 0 ∧
    (runImport (runImport db uid rows []).db uid rows []).duplicateRows =
      (parsePhase uid 1 rows).1.length ∧
    (runImport (runImport db uid rows []).db uid rows []).db =
      (runImport db uid rows []).db := by
  have hins : (commitAll db (parsePhase uid 1 rows).1 []).2.inserted =
      (parsePhase uid 1 rows).1.length := hfull
  have hactive := commitAll_all_inserted_active (parsePhase uid 1 rows).1 db [] hins
  have hrun2 := commitAll_nominal_dups (parsePhase uid 1 rows).1
      (commitAll db (parsePhase uid 1 rows).1 []).1 hactive
  refine ⟨?_, ?_, ?_⟩
  · show (commitAll (commitAll db (parsePhase uid 1 rows).1 []).1
      (parsePhase uid 1 rows).1 []).2.inserted = 0
    rw [hrun2]
  · show (commitAll (commitAll db (parsePhase uid 1 rows).1 []).1
      (parsePhase uid 1 rows).1 []).2.duplicates =
        (parsePhase uid 1 rows).1.length
    rw [hrun2]
  · show (commitAll (commitAll db (parsePhase uid 1 rows).1 []).1
      (parsePhase uid 1 rows).1 []).1 =
        (commitAll db (parsePhase uid 1 rows).1 []).1
    rw [hrun2]

/-- Witness for C3: a fresh ledger, one valid row, imported twice. -/
theorem reimport_identical_file_witness :
    (runImport (runImport ⟨0, []⟩ "u" [⟨some "2024-03-05", some "1200",
        some "expense", some "Food", some "Dinner"⟩] []).db "u"
      [⟨some "2024-03-05", some "1200", some "expense", some "Food",
        some "Dinner"⟩] []).insertedRows = 0 ∧
    (runImport (runImport ⟨0, []⟩ "u" [⟨some "2024-03-05", some "1200",
        some "expense", some "Food", some "Dinner"⟩] []).db "u"
      [⟨some "2024-03-05", some "1200", some "expense", some "Food",
        some "Dinner"⟩] []).duplicateRows =
      (parsePhase "u" 1 [⟨some "2024-03-05", some "1200", some "expense",
        some "Food", some "Dinner"⟩]).1.length ∧
    (runImport (runImport ⟨0, []⟩ "u" [⟨some "2024-03-05", some "1200",
        some "expense", some "Food", some "Dinner"⟩] []).db "u"
      [⟨some "2024-03-05", some "1200", some "expense", some "Food",
        some "Dinner"⟩] []).db =
      (runImport ⟨0, []⟩ "u" [⟨some "2024-03-05", some "1200",
        some "expense", some "Food", some "Dinner"⟩] []).db :=
  reimport_identical_file ⟨0, []⟩ "u"
    [⟨some "2024-03-05", some "1200", some "expense", some "Food",
      some "Dinner"⟩] (by decide)

/-- C10: the five fingerprint fields are joined with `-`, a character
that occurs inside the ISO date and may occur inside the description or
the category, so the join is not injective: the candidates
`(description "a", category "b-c")` and `(description "a-b",
category "c")` — same date, amount and kind — fingerprint identically,
and an import of two such rows treats the second as a duplicate of the
first. -/
theorem fingerprint_separator_collision :
    mkFingerprint ⟨2024, 3, 5⟩ ⟨1200, 0⟩ "expense" "a" "b-c" =
      mkFingerprint ⟨2024, 3, 5⟩ ⟨1200, 0⟩ "expense" "a-b" "c" ∧
    (("a", "b-c") : String × String) ≠ ("a-b", "c") ∧
    (runImport ⟨0, []⟩ "u"
      [⟨some "2024-03-05", some "1200", some "expense", some "b-c", some "a"⟩,
       ⟨some "2024-03-05", some "1200", some "expense", some "c", some "a-b"⟩]
      []).insertedRows = 1 ∧
    (runImport ⟨0, []⟩ "u"
      [⟨some "2024-03-05", some "1200", some "expense", some "b-c", some "a"⟩,
       ⟨some "2024-03-05", some "1200", some "expense", some "c", some "a-b"⟩]
      []).duplicateRows = 1 := by
  refine ⟨by decide, by decide, by decide, by decide⟩

/-- C5: the code accepts `"31/02/2024"`.  `new Date(2024, 1, 31)` rolls
the out-of-range day over to March 2, 2024 instead of producing an
invalid date, so the normalizer returns a date, the row is not recorded
as `Invalid date format`, and `skippedRows` stays 0 — the `isNaN` guard
that was meant to reject it can never fire on a constructed date.  The
row's other fields are schema-valid (its description is nonempty), so
the save succeeds and the row is imported with the rolled-over date. -/
theorem rollover_date_accepted_not_skipped :
    parseDate "31/02/2024" = some ⟨2024, 3, 2⟩ ∧
    classifyRow "u" 1 ⟨some "31/02/2024", some "10", none, none, some "Dinner"⟩ =
      .valid ⟨"u", ⟨2024, 3, 2⟩, ⟨10, 0⟩, "expense", "Uncategorized", "Dinner",
        "2024-03-02T00:00:00.000Z-10-expense-Dinner-Uncategorized", 1⟩ ∧
    (runImport ⟨0, []⟩ "u" [⟨some "31/02/2024", some "10", none, none,
      some "Dinner"⟩] []).skippedRows = 0 ∧
    (runImport ⟨0, []⟩ "u" [⟨some "31/02/2024", some "10", none, none,
      some "Dinner"⟩] []).insertedRows = 1 := by
  refine ⟨by decide, by decide, by decide, by decide⟩

/-- C4 (counterexample): `"03/04/2024"` is a valid calendar date under
the day-month-year reading (April 3, 2024), yet the normalizer returns
March 4, 2024: the generic `new Date(string)` branch runs first and
reads the numeric pattern month-day-year. -/
theorem parseDate_mdy_wins_on_ambiguous :
    parseDate "03/04/2024" = some ⟨2024, 3, 4⟩ ∧
    parseDate "03/04/2024" ≠ some ⟨2024, 4, 3⟩ := by
  refine ⟨by decide, by decide⟩

/-- C4 (amended): for a string matching the numeric pattern
`n1/n2/n3[3]` with a four-digit third component (or with `-`
separators), the generic `new Date(string)` branch runs first and
applies V8's legacy composer: when the first component is a possible
day (1..31) the pattern is read month-day-year, and that reading wins
whenever the first component is a month 1..12 and the second a day
1..31 (the day rolling over past the end of the month, the year value
windowed 0..49 to the 2000s and 50..99 to the 1900s); when the first
component cannot be a day (0 or above 31) the pattern is read
year-month-day, with the windowed first component as the year.  Only
when the legacy parse rejects does the day-month-year construction run,
itself with rollover (and the 1900-shift on constructor years 0..99),
so the numeric pattern never yields "no valid date". -/
theorem parseDate_numeric_priority (s : String) (c1 c2 y : Nat)
    (h : matchSlashDate (jsTrim s.data) = some (c1, c2, y, [])) :
    (1 ≤ c1 ∧ c1 ≤ 12 ∧ 1 ≤ c2 ∧ c2 ≤ 31 →
      parseDate s =
        some (mkDateRolled (jsYearWindow y) ((c1 : Int) - 1) (c2 : Int))) ∧
    (¬(1 ≤ c1 ∧ c1 ≤ 31) → 1 ≤ c2 ∧ c2 ≤ 12 ∧ 1 ≤ y ∧ y ≤ 31 →
      parseDate s =
        some (mkDateRolled (jsYearWindow c1) ((c2 : Int) - 1) (y : Int))) ∧
    (¬(1 ≤ c1 ∧ c1 ≤ 12 ∧ 1 ≤ c2 ∧ c2 ≤ 31) →
      ¬(¬(1 ≤ c1 ∧ c1 ≤ 31) ∧ 1 ≤ c2 ∧ c2 ≤ 12 ∧ 1 ≤ y ∧ y ≤ 31) →
      parseDate s = some (jsMakeDate (y : Int) ((c2 : Int) - 1) (c1 : Int))) := by
  have hs : (s == "") = false := by
    rcases hb : s == "" with _ | _
    · rfl
    · exfalso
      rw [show s = "" from beq_iff_eq.mp hb] at h
      simp [jsTrim, matchSlashDate, matchD2Sep] at h
  obtain ⟨r0, hr0⟩ := matchD2Sep_of_matchSlashDate _ _ _ _ _ h
  have hiso : matchIso (jsTrim s.data) = none :=
    matchIso_eq_none_of_matchD2Sep _ _ hr0
  refine ⟨?_, ?_, ?_⟩
  · rintro ⟨h1, h2, h3, h4⟩
    have h31 : c1 ≤ 31 := by omega
    have hguard1 : (decide (1 ≤ c1) && decide (c1 ≤ 31)) = true := by
      simp [h1, h31]
    have hguard2 : (decide (1 ≤ c1) && decide (c1 ≤ 12) && decide (1 ≤ c2) &&
        decide (c2 ≤ 31)) = true := by
      simp [h1, h2, h3, h4]
    simp only [parseDate, hs, Bool.false_eq_true, if_false, jsDateParse, hiso, h,
      List.isEmpty_nil, if_true, hguard1, hguard2]
  · intro hnd hv
    obtain ⟨hv1, hv2, hv3, hv4⟩ := hv
    have hguard1 : (decide (1 ≤ c1) && decide (c1 ≤ 31)) = false := by
      rcases hb : (decide (1 ≤ c1) && decide (c1 ≤ 31)) with _ | _
      · rfl
      · exfalso
        apply hnd
        simp only [Bool.and_eq_true, decide_eq_true_eq] at hb
        exact hb
    have hguard2 : (decide (1 ≤ c2) && decide (c2 ≤ 12) && decide (1 ≤ y) &&
        decide (y ≤ 31)) = true := by
      simp [hv1, hv2, hv3, hv4]
    simp only [parseDate, hs, Bool.false_eq_true, if_false, jsDateParse, hiso, h,
      List.isEmpty_nil, if_true, hguard1, hguard2]
  · intro hn1 hn2
    by_cases hday : 1 ≤ c1 ∧ c1 ≤ 31
    · have hguard1 : (decide (1 ≤ c1) && decide (c1 ≤ 31)) = true := by
        simp [hday.1, hday.2]
      have hguard2 : (decide (1 ≤ c1) && decide (c1 ≤ 12) && decide (1 ≤ c2) &&
          decide (c2 ≤ 31)) = false := by
        rcases hb : (decide (1 ≤ c1) && decide (c1 ≤ 12) && decide (1 ≤ c2) &&
          decide (c2 ≤ 31)) with _ | _
        · rfl
        · exfalso
          apply hn1
          simp only [Bool.and_eq_true, decide_eq_true_eq] at hb
          exact ⟨hb.1.1.1, hb.1.1.2, hb.1.2, hb.2⟩
      simp only [parseDate, hs, Bool.false_eq_true, if_false, jsDateParse, hiso, h,
        List.isEmpty_nil, if_true, hguard1, hguard2]
    · have hguard1 : (decide (1 ≤ c1) && decide (c1 ≤ 31)) = false := by
        rcases hb : (decide (1 ≤ c1) && decide (c1 ≤ 31)) with _ | _
        · rfl
        · exfalso
          apply hday
          simp only [Bool.and_eq_true, decide_eq_true_eq] at hb
          exact hb
      have hguard2 : (decide (1 ≤ c2) && decide (c2 ≤ 12) && decide (1 ≤ y) &&
          decide (y ≤ 31)) = false := by
        rcases hb : (decide (1 ≤ c2) && decide (c2 ≤ 12) && decide (1 ≤ y) &&
          decide (y ≤ 31)) with _ | _
        · rfl
        · exfalso
          apply hn2
          simp only [Bool.and_eq_true, decide_eq_true_eq] at hb
          exact ⟨hday, hb.1.1.1, hb.1.1.2, hb.1.2, hb.2⟩
      simp only [parseDate, hs, Bool.false_eq_true, if_false, jsDateParse, hiso, h,
        List.isEmpty_nil, if_true, hguard1, hguard2]

/-- Witness for C4's amended theorem at `"03/04/2024"` (month-day-year
wins over the valid day-month-year reading), `"45/10/0020"` (first
component not a day, year-month-day with the windowed year 2045), and
`"31/02/2024"` (legacy parse rejects, day-month-year rollover runs). -/
theorem parseDate_numeric_priority_witness :
    parseDate "03/04/2024" = some (mkDateRolled (jsYearWindow 2024) 2 4) ∧
    parseDate "45/10/0020" = some (mkDateRolled (jsYearWindow 45) 9 20) ∧
    parseDate "31/02/2024" = some (jsMakeDate 2024 1 31) := by
  refine ⟨(parseDate_numeric_priority "03/04/2024" 3 4 2024 (by decide)).1
      (by decide),
    (parseDate_numeric_priority "45/10/0020" 45 10 20 (by decide)).2.1
      (by decide) (by decide),
    (parseDate_numeric_priority "31/02/2024" 31 2 2024 (by decide)).2.2
      (by decide) (by decide)⟩

/-- C9 (counterexample): on a row whose date and amount are both
invalid, the recorded error is `Invalid date format`, not
`Invalid amount`: the mapper checks the date first. -/
theorem date_error_shadows_amount_error :
    classifyRow "u" 1 ⟨some "nonsense", some "abc", none, none, none⟩ =
      .skip "Invalid date format" ∧
    ("Invalid date format" : String) ≠ "Invalid amount" := by
  refine ⟨by decide, by decide⟩

/-- C9 (amended): the mapper validates the date first: any row whose
date does not normalize is recorded `Invalid date format`, whatever its
amount; `Invalid amount` is recorded exactly when the date normalizes
and the cleaned amount is unparseable (treated as 0) or not strictly
positive. -/
theorem classifyRow_date_checked_first (uid : String) (n : Nat) (r : RawRow) :
    (parseDateField r.date = none →
      classifyRow uid n r = .skip "Invalid date format") ∧
    (∀ d, parseDateField r.date = some d → (amountOf r).m ≤ 0 →
      classifyRow uid n r = .skip "Invalid amount") := by
  constructor
  · intro hd
    simp [classifyRow, hd]
  · intro d hd ha
    simp [classifyRow, hd, ha]

/-- C8: for every import run — over any starting ledger and any storage
faults — every data row lands in exactly one bucket:
`totalRows = insertedRows + skippedRows + duplicateRows +
insert-phase errors`, where the insert-phase errors are exactly the
recorded row errors not already counted in `skippedRows`
(`errors.length = skippedRows + insertPhaseErrors`). -/
theorem import_totals_reconcile (db : DB) (uid : String) (rows : List RawRow)
    (fs : List Fault) :
    (runImport db uid rows fs).totalRows =
      (runImport db uid rows fs).insertedRows +
      (runImport db uid rows fs).skippedRows +
      (runImport db uid rows fs).duplicateRows +
      (runImport db uid rows fs).insertPhaseErrors ∧
    (runImport db uid rows fs).errors.length =
      (runImport db uid rows fs).skippedRows +
      (runImport db uid rows fs).insertPhaseErrors := by
  have h1 := parsePhase_length uid rows 1
  have h2 := commitAll_counts (parsePhase uid 1 rows).1 db fs
  constructor
  · simp only [runImport]
    omega
  · simp only [runImport, List.length_append]

/-- C7: the settlement of the i-th handle returned by `enqueue` under
one owner key depends only on that task's own outcome and its position:
it fulfills with the task's result when the task fulfills and rejects
with the task's own error when it rejects — independent of the previous
chain tail `prev`, so an earlier task's rejection neither blocks a
later task from running nor rejects a later task's handle (both the
fulfillment and the rejection handler of `previous.then(runTask,
runTask)` run the task). -/
theorem chainHandles_isolated (counter : Nat) (prev : Settle)
    (bs : List TaskBehavior) (i : Nat) :
    (chainHandles counter prev bs)[i]? =
      (bs[i]?).map (fun b => runTask (counter + i + 1) b) := by
  induction bs generalizing counter prev i with
  | nil => simp [chainHandles]
  | cons b rest ih =>
    cases i with
    | zero =>
      cases prev <;> simp [chainHandles, promiseThen]
    | succ j =>
      have harith : counter + (j + 1) + 1 = counter + 1 + j + 1 := by omega
      simp only [chainHandles, List.getElem?_cons_succ, harith]
      exact ih (counter + 1) _ j

/-- Witness for C9's amended theorem: a bad-date row and a
valid-date/bad-amount row. -/
theorem classifyRow_date_checked_first_witness :
    classifyRow "u" 1 ⟨some "nonsense", some "abc", none, none, none⟩ =
      .skip "Invalid date format" ∧
    classifyRow "u" 2 ⟨some "2024-03-05", some "abc", none, none, none⟩ =
      .skip "Invalid amount" := by
  refine ⟨(classifyRow_date_checked_first "u" 1
      ⟨some "nonsense", some "abc", none, none, none⟩).1 (by decide),
    (classifyRow_date_checked_first "u" 2
      ⟨some "2024-03-05", some "abc", none, none, none⟩).2 ⟨2024, 3, 5⟩
      (by decide) (by decide)⟩

theorem getK_setK_self (s : QState) (k : String) (v : KState) :
    getK (setK s k v) k = v := by
  induction s with
  | nil => simp [getK, setK, List.find?]
  | cons p rest ih =>
    rcases p with ⟨k1, v1⟩
    by_cases h1 : (k1 == k) = true
    · simp [setK, h1, getK, List.find?]
    · simp only [setK, h1, Bool.false_eq_true, if_false]
      show getK ((k1, v1) :: setK rest k v) k = v
      unfold getK
      rw [List.find?_cons]
      simp only [h1]
      exact ih

theorem getK_setK_ne (s : QState) (k k2 : String) (v : KState) (h : k2 ≠ k) :
    getK (setK s k v) k2 = getK s k2 := by
  have hkk : (k == k2) = false := by
    simp only [beq_eq_false_iff_ne]
    exact fun he => h he.symm
  induction s with
  | nil => simp [getK, setK, List.find?, hkk]
  | cons p rest ih =>
    rcases p with ⟨k1, v1⟩
    by_cases h1 : (k1 == k) = true
    · have hk1 : k1 = k := beq_iff_eq.mp h1
      subst hk1
      simp only [setK, beq_self_eq_true, if_true]
      unfold getK
      rw [List.find?_cons, List.find?_cons]
      simp only [hkk]
    · simp only [setK, h1, Bool.false_eq_true, if_false]
      unfold getK
      rw [List.find?_cons, List.find?_cons]
      cases h2 : (k1 == k2) with
      | true => rfl
      | false => exact ih

theorem allPending_status (t : TaskRec) (ts : List TaskRec)
    (h : allPending (t :: ts) = true) :
    t.status = .pending ∧ allPending ts = true := by
  unfold allPending at h
  rw [List.all_cons, Bool.and_eq_true] at h
  refine ⟨?_, h.2⟩
  rcases t with ⟨tb, tst⟩
  cases tst with
  | pending => rfl
  | running o => cases h.1
  | settled o => cases h.1

theorem ordersOf_allPending (ts : List TaskRec) (h : allPending ts = true) :
    ordersOf ts = [] := by
  induction ts with
  | nil => rfl
  | cons t rest ih =>
    obtain ⟨h1, h2⟩ := allPending_status t rest h
    rcases t with ⟨tb, tst⟩
    cases tst with
    | pending => exact ih h2
    | running o => cases h1
    | settled o => cases h1

theorem allPending_append_pending (ts : List TaskRec) (b : TaskBehavior)
    (h : allPending ts = true) :
    allPending (ts ++ [⟨b, .pending⟩]) = true := by
  unfold allPending at h ⊢
  rw [List.all_append, h]
  rfl

theorem chainShape_allPending (ts : List TaskRec) (h : allPending ts = true) :
    chainShape ts = true := by
  induction ts with
  | nil => rfl
  | cons t rest ih =>
    obtain ⟨h1, h2⟩ := allPending_status t rest h
    rcases t with ⟨tb, tst⟩
    cases tst with
    | pending => exact h2
    | running o => cases h1
    | settled o => cases h1

theorem ordersFrom_allPending (n : Nat) (ts : List TaskRec)
    (h : allPending ts = true) : ordersFrom n ts = true := by
  cases ts with
  | nil => rfl
  | cons t rest =>
    obtain ⟨h1, h2⟩ := allPending_status t rest h
    rcases t with ⟨tb, tst⟩
    cases tst with
    | pending => rfl
    | running o => cases h1
    | settled o => cases h1

theorem chainShape_append_pending (ts : List TaskRec) (b : TaskBehavior)
    (h : chainShape ts = true) :
    chainShape (ts ++ [⟨b, .pending⟩]) = true := by
  induction ts with
  | nil => rfl
  | cons t rest ih =>
    rcases t with ⟨tb, tst⟩
    cases tst with
    | settled o => exact ih h
    | running o => exact allPending_append_pending rest b h
    | pending => exact allPending_append_pending rest b h

theorem bool_and_split (a b : Bool) (h : (a && b) = true) :
    a = true ∧ b = true := by
  cases a with
  | false => cases h
  | true => exact ⟨rfl, h⟩

theorem ordersFrom_append_pending (n : Nat) (ts : List TaskRec) (b : TaskBehavior)
    (h : ordersFrom n ts = true) :
    ordersFrom n (ts ++ [⟨b, .pending⟩]) = true := by
  induction ts generalizing n with
  | nil => rfl
  | cons t rest ih =>
    rcases t with ⟨tb, tst⟩
    cases tst with
    | settled o =>
      have h2 := bool_and_split _ _ (show ((o == n) &&
        ordersFrom (n + 1) rest) = true from h)
      show ((o == n) && ordersFrom (n + 1) (rest ++ [⟨b, .pending⟩])) = true
      rw [h2.1, ih (n + 1) h2.2]
      rfl
    | running o => exact h
    | pending => rfl

theorem ordersOf_append_pending (ts : List TaskRec) (b : TaskBehavior) :
    ordersOf (ts ++ [⟨b, .pending⟩]) = ordersOf ts := by
  unfold ordersOf
  rw [List.filterMap_append]
  show ordersOf ts ++ [] = ordersOf ts
  rw [List.append_nil]

theorem startFirst_spec (ts : List TaskRec) (n : Nat) (ts2 : List TaskRec)
    (hs : chainShape ts = true) (ho : ordersFrom n ts = true)
    (h : startFirst ts (n + countStarted ts) = some ts2) :
    chainShape ts2 = true ∧ ordersFrom n ts2 = true ∧
    countStarted ts2 = countStarted ts + 1 := by
  induction ts generalizing n ts2 with
  | nil => cases h
  | cons t rest ih =>
    rcases t with ⟨tb, tst⟩
    cases tst with
    | settled o =>
      obtain ⟨hon, horest⟩ := bool_and_split _ _ (show ((o == n) &&
        ordersFrom (n + 1) rest) = true from ho)
      have hcount : countStarted (⟨tb, .settled o⟩ :: rest) =
          countStarted rest + 1 := rfl
      have harg : n + countStarted (⟨tb, .settled o⟩ :: rest) =
          (n + 1) + countStarted rest := by
        rw [hcount]
        omega
      rw [harg] at h
      have h4 : (startFirst rest ((n + 1) + countStarted rest)).map
          (fun l => (⟨tb, TaskStatus.settled o⟩ : TaskRec) :: l) = some ts2 := h
      cases hsf : startFirst rest ((n + 1) + countStarted rest) with
      | none => rw [hsf] at h4; cases h4
      | some ts3 =>
        rw [hsf] at h4
        have hts2 : (⟨tb, TaskStatus.settled o⟩ : TaskRec) :: ts3 = ts2 :=
          Option.some.inj h4
        obtain ⟨hc2, ho2, hn2⟩ := ih (n + 1) ts3 hs horest hsf
        rw [← hts2]
        refine ⟨hc2, ?_, ?_⟩
        · show ((o == n) && ordersFrom (n + 1) ts3) = true
          rw [hon, ho2]
          rfl
        · have e1 : countStarted ((⟨tb, TaskStatus.settled o⟩ : TaskRec) :: ts3) =
            countStarted ts3 + 1 := rfl
          rw [e1, hcount]
          omega
    | pending =>
      have hap : allPending rest = true := hs
      have hzero : countStarted (⟨tb, .pending⟩ :: rest) = 0 := by
        show (ordersOf rest).length = 0
        rw [ordersOf_allPending rest hap]
        rfl
      rw [hzero] at h
      cases h
      refine ⟨hap, ?_, ?_⟩
      · show (n + 0 == n) = true
        simp
      · show ((n + 0) :: ordersOf rest).length = countStarted (⟨tb, .pending⟩ :: rest) + 1
        rw [hzero]
        show (ordersOf rest).length + 1 = 0 + 1
        rw [ordersOf_allPending rest hap]
        rfl
    | running o => cases h

theorem finishRunning_spec (ts : List TaskRec) (n : Nat) (ts2 : List TaskRec)
    (hs : chainShape ts = true) (ho : ordersFrom n ts = true)
    (h : finishRunning ts = some ts2) :
    chainShape ts2 = true ∧ ordersFrom n ts2 = true ∧
    countStarted ts2 = countStarted ts := by
  induction ts generalizing n ts2 with
  | nil => cases h
  | cons t rest ih =>
    rcases t with ⟨tb, tst⟩
    cases tst with
    | settled o =>
      obtain ⟨hon, horest⟩ := bool_and_split _ _ (show ((o == n) &&
        ordersFrom (n + 1) rest) = true from ho)
      have h4 : (finishRunning rest).map
          (fun l => (⟨tb, TaskStatus.settled o⟩ : TaskRec) :: l) = some ts2 := h
      cases hsf : finishRunning rest with
      | none => rw [hsf] at h4; cases h4
      | some ts3 =>
        rw [hsf] at h4
        have hts2 : (⟨tb, TaskStatus.settled o⟩ : TaskRec) :: ts3 = ts2 :=
          Option.some.inj h4
        obtain ⟨hc2, ho2, hn2⟩ := ih (n + 1) ts3 hs horest hsf
        rw [← hts2]
        refine ⟨hc2, ?_, ?_⟩
        · show ((o == n) && ordersFrom (n + 1) ts3) = true
          rw [hon, ho2]
          rfl
        · have e1 : countStarted ((⟨tb, TaskStatus.settled o⟩ : TaskRec) :: ts3) =
            countStarted ts3 + 1 := rfl
          have e2 : countStarted (⟨tb, TaskStatus.settled o⟩ :: rest) =
            countStarted rest + 1 := rfl
          rw [e1, e2, hn2]
    | running o =>
      have hap : allPending rest = true := hs
      cases h
      refine ⟨chainShape_allPending rest hap, ?_, rfl⟩
      show ((o == n) && ordersFrom (n + 1) rest) = true
      rw [show (o == n) = true from ho, ordersFrom_allPending (n + 1) rest hap]
      rfl
    | pending => cases h

theorem stepK_preserves (ks : KState) (st : QStep) (ks2 : KState)
    (h : stepK ks st = some ks2) (hi : InvK ks) : InvK ks2 := by
  obtain ⟨h1, h2, h3⟩ := hi
  cases st with
  | enqueue k b =>
    have he : (⟨ks.counter, ks.tasks ++ [⟨b, .pending⟩]⟩ : KState) = ks2 :=
      Option.some.inj h
    rw [← he]
    refine ⟨chainShape_append_pending _ _ h1,
      ordersFrom_append_pending _ _ _ h2, ?_⟩
    show ks.counter = countStarted (ks.tasks ++ [⟨b, .pending⟩])
    unfold countStarted
    rw [ordersOf_append_pending]
    exact h3
  | start k =>
    have h4 : (match startFirst ks.tasks (ks.counter + 1) with
      | some ts => some (⟨ks.counter + 1, ts⟩ : KState)
      | none => none) = some ks2 := h
    cases hsf : startFirst ks.tasks (ks.counter + 1) with
    | none => rw [hsf] at h4; cases h4
    | some ts =>
      rw [hsf] at h4
      have he : (⟨ks.counter + 1, ts⟩ : KState) = ks2 := Option.some.inj h4
      rw [← he]
      have harg : ks.counter + 1 = 1 + countStarted ks.tasks := by omega
      rw [harg] at hsf
      obtain ⟨hc, ho, hn⟩ := startFirst_spec ks.tasks 1 ts h1 h2 hsf
      refine ⟨hc, ho, ?_⟩
      show ks.counter + 1 = countStarted ts
      omega
  | finish k =>
    have h4 : (match finishRunning ks.tasks with
      | some ts => some (⟨ks.counter, ts⟩ : KState)
      | none => none) = some ks2 := h
    cases hsf : finishRunning ks.tasks with
    | none => rw [hsf] at h4; cases h4
    | some ts =>
      rw [hsf] at h4
      have he : (⟨ks.counter, ts⟩ : KState) = ks2 := Option.some.inj h4
      rw [← he]
      obtain ⟨hc, ho, hn⟩ := finishRunning_spec ks.tasks 1 ts h1 h2 hsf
      refine ⟨hc, ho, ?_⟩
      show ks.counter = countStarted ts
      omega

theorem execTrace_invK (steps : List QStep) (s0 s : QState)
    (h : execTrace s0 steps = some s) (hi : ∀ k, InvK (getK s0 k)) :
    ∀ k, InvK (getK s k) := by
  induction steps generalizing s0 with
  | nil => cases h; exact hi
  | cons st rest ih =>
    have h4 : (match applyStep s0 st with
      | some s1 => execTrace s1 rest
      | none => none) = some s := h
    cases happ : applyStep s0 st with
    | none => rw [happ] at h4; cases h4
    | some s1 =>
      rw [happ] at h4
      apply ih s1 h4
      intro k
      have h5 : (stepK (getK s0 (stepKey st)) st).map (setK s0 (stepKey st)) =
          some s1 := happ
      cases hsk : stepK (getK s0 (stepKey st)) st with
      | none => rw [hsk] at h5; cases h5
      | some ks2 =>
        rw [hsk] at h5
        have hs1 : setK s0 (stepKey st) ks2 = s1 := Option.some.inj h5
        by_cases hkey : k = stepKey st
        · rw [← hs1, hkey, getK_setK_self]
          exact stepK_preserves _ _ _ hsk (hi (stepKey st))
        · rw [← hs1, getK_setK_ne _ _ _ _ hkey]
          exact hi k

theorem execTrace_filter (steps : List QStep) (s0 s : QState)
    (h : execTrace s0 steps = some s) (k : String) (s0' : QState)
    (hk : getK s0' k = getK s0 k) :
    ∃ s2, execTrace s0' (steps.filter (fun st => stepKey st == k)) = some s2 ∧
      getK s2 k = getK s k := by
  induction steps generalizing s0 s0' with
  | nil =>
    cases h
    exact ⟨s0', rfl, hk⟩
  | cons st rest ih =>
    have h4 : (match applyStep s0 st with
      | some s1 => execTrace s1 rest
      | none => none) = some s := h
    cases happ : applyStep s0 st with
    | none => rw [happ] at h4; cases h4
    | some s1 =>
      rw [happ] at h4
      have h5 : (stepK (getK s0 (stepKey st)) st).map (setK s0 (stepKey st)) =
          some s1 := happ
      cases hsk : stepK (getK s0 (stepKey st)) st with
      | none => rw [hsk] at h5; cases h5
      | some ks2 =>
        rw [hsk] at h5
        have hs1 : setK s0 (stepKey st) ks2 = s1 := Option.some.inj h5
        by_cases hkey : stepKey st = k
        · have hfilter : (st :: rest).filter (fun st2 => stepKey st2 == k) =
              st :: rest.filter (fun st2 => stepKey st2 == k) := by
            rw [List.filter_cons]
            simp [hkey]
          rw [hfilter]
          have happ2 : applyStep s0' st = some (setK s0' (stepKey st) ks2) := by
            show (stepK (getK s0' (stepKey st)) st).map (setK s0' (stepKey st)) =
              some (setK s0' (stepKey st) ks2)
            rw [hkey, hk, ← hkey, hsk]
            rfl
          have hgk1 : getK (setK s0' (stepKey st) ks2) k = getK s1 k := by
            rw [← hs1, hkey, getK_setK_self, getK_setK_self]
          obtain ⟨s2, hex, hg⟩ := ih s1 h4 (setK s0' (stepKey st) ks2) hgk1
          refine ⟨s2, ?_, hg⟩
          show (match applyStep s0' st with
            | some s3 => execTrace s3 (rest.filter (fun st2 => stepKey st2 == k))
            | none => none) = some s2
          rw [happ2]
          exact hex
        · have hfilter : (st :: rest).filter (fun st2 => stepKey st2 == k) =
              rest.filter (fun st2 => stepKey st2 == k) := by
            rw [List.filter_cons]
            simp [hkey]
          rw [hfilter]
          apply ih s1 h4 s0'
          rw [hk, ← hs1, getK_setK_ne _ _ _ _ (fun he => hkey he.symm)]

theorem ordersOf_range (ts : List TaskRec) (n : Nat)
    (hs : chainShape ts = true) (ho : ordersFrom n ts = true) :
    ordersOf ts = List.range' n (countStarted ts) := by
  induction ts generalizing n with
  | nil => rfl
  | cons t rest ih =>
    rcases t with ⟨tb, tst⟩
    cases tst with
    | pending =>
      have hap : allPending rest = true := hs
      show ordersOf rest = List.range' n (ordersOf rest).length
      rw [ordersOf_allPending rest hap]
      rfl
    | running o =>
      have hap : allPending rest = true := hs
      have hon : o = n := beq_iff_eq.mp (show (o == n) = true from ho)
      show o :: ordersOf rest = List.range' n (o :: ordersOf rest).length
      rw [ordersOf_allPending rest hap, hon]
      rfl
    | settled o =>
      obtain ⟨hon1, horest⟩ := bool_and_split _ _ (show ((o == n) &&
        ordersFrom (n + 1) rest) = true from ho)
      have hon : o = n := beq_iff_eq.mp hon1
      have hsr : chainShape rest = true := hs
      have e : ordersOf (⟨tb, TaskStatus.settled o⟩ :: rest) = o :: ordersOf rest :=
        rfl
      have hlen : countStarted (⟨tb, TaskStatus.settled o⟩ :: rest) =
          countStarted rest + 1 := rfl
      rw [e, hlen, ih (n + 1) hsr horest, hon]
      rfl

/-- C1: along every valid schedule of the `ImportCommitQueue` — any
interleaving of enqueues, task starts and task settlements across
owner keys — each owner's chain keeps the shape settled-prefix, at most
one running task, pending-suffix (tasks of one owner execute one at a
time, in enqueue order, with no interleaving); the i-th task to begin
executing receives commit order i, drawn at start time (enqueues never
touch the counter), so the orders handed out are exactly the gap-free,
repeat-free sequence 1..N; and an owner's chain state is exactly what
its own events produce — the events of other owner keys neither block
nor reorder it. -/
theorem queue_serializes_per_owner (steps : List QStep) (s : QState)
    (h : execTrace initQ steps = some s) (k : String) :
    chainShape (getK s k).tasks = true ∧
    ordersFrom 1 (getK s k).tasks = true ∧
    (getK s k).counter = countStarted (getK s k).tasks ∧
    ordersOf (getK s k).tasks = List.range' 1 (countStarted (getK s k).tasks) ∧
    (execTrace initQ (steps.filter (fun st => stepKey st == k))).isSome = true ∧
    getK ((execTrace initQ (steps.filter (fun st => stepKey st == k))).getD initQ)
      k = getK s k := by
  have hinv := execTrace_invK steps initQ s h (fun k2 => ⟨rfl, rfl, rfl⟩)
  obtain ⟨h1, h2, h3⟩ := hinv k
  obtain ⟨s2, hex, hgk⟩ := execTrace_filter steps initQ s h k initQ rfl
  refine ⟨h1, h2, h3, ordersOf_range _ 1 h1 h2, ?_, ?_⟩
  · rw [hex]
    rfl
  · rw [hex]
    exact hgk

/-- Witness for C1: an interleaved schedule of two owners, including a
rejecting task, projected onto owner `a`. -/
theorem queue_serializes_per_owner_witness :
    chainShape (getK [("a", ⟨2, [⟨.ok, .settled 1⟩, ⟨.fail "e", .settled 2⟩]⟩),
      ("b", ⟨1, [⟨.ok, .settled 1⟩]⟩)] "a").tasks = true ∧
    ordersFrom 1 (getK [("a", ⟨2, [⟨.ok, .settled 1⟩, ⟨.fail "e", .settled 2⟩]⟩),
      ("b", ⟨1, [⟨.ok, .settled 1⟩]⟩)] "a").tasks = true ∧
    (getK [("a", ⟨2, [⟨.ok, .settled 1⟩, ⟨.fail "e", .settled 2⟩]⟩),
      ("b", ⟨1, [⟨.ok, .settled 1⟩]⟩)] "a").counter =
      countStarted (getK [("a", ⟨2, [⟨.ok, .settled 1⟩, ⟨.fail "e", .settled 2⟩]⟩),
        ("b", ⟨1, [⟨.ok, .settled 1⟩]⟩)] "a").tasks ∧
    ordersOf (getK [("a", ⟨2, [⟨.ok, .settled 1⟩, ⟨.fail "e", .settled 2⟩]⟩),
      ("b", ⟨1, [⟨.ok, .settled 1⟩]⟩)] "a").tasks =
      List.range' 1 (countStarted (getK [("a", ⟨2, [⟨.ok, .settled 1⟩,
        ⟨.fail "e", .settled 2⟩]⟩), ("b", ⟨1, [⟨.ok, .settled 1⟩]⟩)] "a").tasks) ∧
    (execTrace initQ ([QStep.enqueue "a" .ok, QStep.enqueue "a" (.fail "e"),
      QStep.enqueue "b" .ok, QStep.start "a", QStep.start "b",
      QStep.finish "a", QStep.finish "b", QStep.start "a",
      QStep.finish "a"].filter (fun st => stepKey st == "a"))).isSome = true ∧
    getK ((execTrace initQ ([QStep.enqueue "a" .ok, QStep.enqueue "a" (.fail "e"),
      QStep.enqueue "b" .ok, QStep.start "a", QStep.start "b",
      QStep.finish "a", QStep.finish "b", QStep.start "a",
      QStep.finish "a"].filter (fun st => stepKey st == "a"))).getD initQ) "a" =
      getK [("a", ⟨2, [⟨.ok, .settled 1⟩, ⟨.fail "e", .settled 2⟩]⟩),
        ("b", ⟨1, [⟨.ok, .settled 1⟩]⟩)] "a" :=
  queue_serializes_per_owner
    [QStep.enqueue "a" .ok, QStep.enqueue "a" (.fail "e"),
      QStep.enqueue "b" .ok, QStep.start "a", QStep.start "b",
      QStep.finish "a", QStep.finish "b", QStep.start "a", QStep.finish "a"]
    [("a", ⟨2, [⟨.ok, .settled 1⟩, ⟨.fail "e", .settled 2⟩]⟩),
      ("b", ⟨1, [⟨.ok, .settled 1⟩]⟩)]
    (by decide) "a"

end LuiFlow
